import Mathlib

/-!
Verification development for the option-learning agent in
`barl_simpleoptions/options_agent.py`.

The agent is embedded shallowly:

* Python states, primitive actions and options become type parameters
  `S`, `A`, `O`; the environment/option collaborators (their behaviour is
  consumed, never implemented, by the agent) become an `EnvModel` record of
  pure functions.
* `select_action` may return either a primitive action or an option
  (`isinstance(selected_option, Option)` in the driver); this becomes the
  `Decision` sum type.
* The Python value table is a dict keyed by `(hash(state), hash(option))`
  with `.get(key, 0)`; it becomes an association list `QTab` where a write
  conses a binding and a read returns the newest binding, defaulting to `0`.
* Fallible code paths (IndexError on `[-1]` / `pop(0)` of an empty list,
  `max()` of an empty sequence, `random.choice` of a non-sequence,
  reference to an unassigned local, attribute access on a primitive) return
  `Except PyErr`; each Python exception class gets its own constructor so
  that distinct failure modes stay distinguishable.
* Randomness (`random.random()`, `random.choice`, termination rolls) is
  supplied by explicit oracle arguments.
* Floats are modelled as rationals.
-/

/-- A runtime error of the Python program, by exception class.
`fuelOut` is a modelling artifact for the fuel-bounded episode loop and
corresponds to no Python exception. -/
inductive PyErr : Type
  | indexError
  | valueError
  | typeError
  | unboundLocal
  | attributeError
  | fuelOut
deriving DecidableEq

/-- The polymorphic decision type `Action | Option` returned by
`select_action` and by an option's `policy`, and the element type of
`get_available_options` (the driver distinguishes the two cases with
`isinstance(selected_option, Option)`). -/
inductive Decision (A O : Type) : Type
  | prim (a : A)
  | opt (o : O)
deriving DecidableEq

/-- The behaviour of the environment and of the options, as consumed by the
agent: `is_state_terminal`, `get_available_options`, `reset`, `step`
(modelled as a deterministic function of the current state), the per-option
`initiation` / `policy` / `termination` members, and the Python `hash`
functions used to key the value table. -/
structure EnvModel (S A O : Type) : Type where
  isTerminal : S → Bool
  availOptions : S → List (Decision A O)
  reset : S
  stepf : S → A → S × ℚ × Bool
  initiation : O → S → Bool
  policy : O → S → Decision A O
  termination : O → S → ℚ
  hashS : S → Int
  hashA : A → Int
  hashO : O → Int

/-- `hash(x)` on a value that may be a primitive action or an option. -/
def hashD (E : EnvModel S A O) : Decision A O → Int
  | .prim a => E.hashA a
  | .opt o => E.hashO o

/-- The value table `self.q_table`: a dict keyed by
`(hash(state), hash(option))` holding rationals. -/
abbrev QTab : Type := List ((Int × Int) × ℚ)

/-- `self.q_table.get(key, 0)`: newest binding wins, missing keys read 0. -/
def qget (q : QTab) (k : Int × Int) : ℚ :=
  match q with
  | [] => 0
  | (k', v) :: rest => if k' = k then v else qget rest k

/-- `self.q_table[key] = v`. -/
def qset (q : QTab) (k : Int × Int) (v : ℚ) : QTab :=
  (k, v) :: q

/-- Python `max` over a list of rationals, given a nonempty list
(the empty case is handled by the caller, since `max([])` raises). -/
def listMax0 : List ℚ → ℚ
  | [] => 0
  | v :: vs => List.foldl max v vs

/-- `OptionAgent._discounted_return(rewards, gamma)`: fill an array with
`gamma ** index`, multiply elementwise with the rewards, and sum. -/
def discounted_return (rewards : List ℚ) (γ : ℚ) : ℚ :=
  (List.zipWith (fun r g => r * g) rewards
    ((List.range rewards.length).map fun i => γ ^ i)).sum

/-- The `while len(state_trajectory) > 1:` loop of
`OptionAgent.macro_q_learn`, with `termination_state` (fixed before the
loop) and the option already supplied.  The returned list logs, in order,
every assignment `q_table[key] = value` the loop performs.

In the terminal-state branch the source runs `q_values.append(0)` but no
prior statement ever assigns `q_values`, so Python raises
UnboundLocalError there, before any table write.  In the non-terminal
branch, `max(q_values)` raises ValueError when
`get_available_options(termination_state)` is empty.  `rewards.pop(0)` on
an exhausted reward list raises IndexError (unreachable when
`len(rewards) = len(state_trajectory) - 1`). -/
def macro_q_learn_go (E : EnvModel S A O) (αm γ : ℚ) (term : S) (opt : O) :
    List S → List ℚ → QTab → List ((Int × Int) × ℚ) →
    Except PyErr (QTab × List ((Int × Int) × ℚ))
  | s0 :: s1 :: rest, rewards, q, log =>
      let old := qget q (E.hashS s0, E.hashO opt)
      let g := discounted_return rewards γ
      if E.isTerminal term then .error .unboundLocal
      else
        match (E.availOptions term).map (fun o => qget q (E.hashS term, hashD E o)) with
        | [] => .error .valueError
        | v :: vs =>
            let m := List.foldl max v vs
            let newv := old + αm * (g + γ ^ rewards.length * m - old)
            match rewards with
            | [] => .error .indexError
            | _ :: rs =>
                macro_q_learn_go E αm γ term opt (s1 :: rest) rs
                  (qset q (E.hashS s0, E.hashO opt) newv)
                  (log ++ [((E.hashS s0, E.hashO opt), newv)])
  | _, _, q, log => .ok (q, log)

/-- `OptionAgent.macro_q_learn(state_trajectory, rewards, option)`.
`state_trajectory[-1]` raises IndexError on an empty trajectory; the
deep copies in the source are identities here since the model is pure. -/
def macro_q_learn (E : EnvModel S A O) (αm γ : ℚ)
    (traj : List S) (rewards : List ℚ) (opt : O) (q : QTab) :
    Except PyErr (QTab × List ((Int × Int) × ℚ)) :=
  match traj.getLast? with
  | none => .error .indexError
  | some term => macro_q_learn_go E αm γ term opt traj rewards q []

/-- The `for other_option in self.env.get_available_options(initiation_state):`
body of `OptionAgent.intra_option_learn`, for one suffix window
(`initiation_state = s0`, current `rewards`, fixed `termination_state`).

Calling `.initiation` on a primitive action raises AttributeError.  The
update condition is exactly the source's
`other_option.initiation(initiation_state) and
hash(executed_option.policy(initiation_state)) == hash(executed_option)`;
the old value is read at `(hash(initiation_state), hash(other_option))`
and the new value is written at
`(hash(termination_state), hash(other_option))`. -/
def intra_inner (E : EnvModel S A O) (αi γ : ℚ) (term : S) (executed : O)
    (s0 : S) (rewards : List ℚ) :
    List (Decision A O) → QTab → Except PyErr QTab
  | [], q => .ok q
  | .prim _ :: _, _q => .error .attributeError
  | .opt other :: others, q =>
      if E.initiation other s0 &&
          (hashD E (E.policy executed s0) == E.hashO executed) then
        match E.availOptions term with
        | [] => .error .valueError
        | d :: ds =>
            let old := qget q (E.hashS s0, E.hashO other)
            let g := discounted_return rewards γ
            let tprob := E.termination other term
            let nqTerm := tprob *
              listMax0 ((d :: ds).map fun o => qget q (E.hashS term, hashD E o))
            let nqCont := (1 - tprob) * qget q (E.hashS term, E.hashO other)
            intra_inner E αi γ term executed s0 rewards others
              (qset q (E.hashS term, E.hashO other)
                (old + αi * (g + γ ^ rewards.length * (nqCont + nqTerm) - old)))
      else intra_inner E αi γ term executed s0 rewards others q

/-- The `while len(state_trajectory) > 1:` loop of
`OptionAgent.intra_option_learn`. -/
def intra_go (E : EnvModel S A O) (αi γ : ℚ) (term : S) (executed : O) :
    List S → List ℚ → QTab → Except PyErr QTab
  | s0 :: s1 :: rest, rewards, q =>
      match intra_inner E αi γ term executed s0 rewards (E.availOptions s0) q with
      | .error e => .error e
      | .ok q' =>
          match rewards with
          | [] => .error .indexError
          | _ :: rs => intra_go E αi γ term executed (s1 :: rest) rs q'
  | _, _, q => .ok q

/-- `OptionAgent.intra_option_learn(state_trajectory, rewards, executed_option)`. -/
def intra_option_learn (E : EnvModel S A O) (αi γ : ℚ)
    (traj : List S) (rewards : List ℚ) (executed : O) (q : QTab) :
    Except PyErr QTab :=
  match traj.getLast? with
  | none => .error .indexError
  | some term => intra_go E αi γ term executed traj rewards q

/-- `OptionAgent.select_action(state)`.  `executing` is
`self.executing_options` with the top of the stack (`[-1]` in the source)
at the head.  `randVal` models the `random.random()` draw and `randIdx`
the index drawn by `random.choice` in the exploration branch.

In the greedy branch the source calls
`random.choice(idx for idx, q_value in enumerate(q_values) if ...)`:
`random.choice` requires a sequence with `len()`, so passing a generator
expression raises TypeError before anything is returned. -/
def select_action (E : EnvModel S A O) (ε : ℚ) (q : QTab)
    (executing : List O) (state : S) (randVal : ℚ) (randIdx : Nat) :
    Except PyErr (Decision A O) :=
  match executing with
  | [] =>
      if randVal < ε then
        match E.availOptions state with
        | [] => .error .indexError
        | d :: ds => .ok ((d :: ds).getD (randIdx % (ds.length + 1)) d)
      else .error .typeError
  | top :: _ => .ok (E.policy top state)

/-- The three parallel stack attributes `self.executing_options`,
`self.executing_options_states`, `self.executing_options_rewards`.
The Python lists append and pop at the end and index the top with `[-1]`;
here the top of the stack is the HEAD of each list, so Python's
`append`/`pop()`/`[-1]` become cons/tail/head. -/
structure Stack (S O : Type) : Type where
  opts : List O
  states : List (List S)
  rewards : List (List ℚ)
deriving DecidableEq

/-- Lines 202-204 of the driver: push a newly selected option with a fresh
single-state trajectory and an empty reward list. -/
def pushOp (st : Stack S O) (o : O) (s : S) : Stack S O :=
  ⟨o :: st.opts, [s] :: st.states, [] :: st.rewards⟩

/-- Lines 213-215 of the driver: after a primitive environment step, every
active option's trajectories record the new state and the reward. -/
def stepOp (st : Stack S O) (s' : S) (r : ℚ) : Stack S O :=
  ⟨st.opts, st.states.map (fun tr => tr ++ [s']), st.rewards.map (fun tr => tr ++ [r])⟩

/-- The three `pop()` calls that retire the top option (lines 231-233 and
250-252). -/
def popOp (st : Stack S O) : Stack S O :=
  ⟨st.opts.tail, st.states.tail, st.rewards.tail⟩

/-- `len(states) == len(rewards) + 1` for each co-indexed pair of
trajectories, and the two lists have equal length. -/
def recordsWF : List (List S) → List (List ℚ) → Bool
  | [], [] => true
  | ss :: srest, rs :: rrest => (ss.length == rs.length + 1) && recordsWF srest rrest
  | _, _ => false

/-- The execution-stack invariant: the three parallel lists have equal
length and every active option's trajectories satisfy
`len(states) == len(rewards) + 1`. -/
def stackWF (st : Stack S O) : Bool :=
  (st.opts.length == st.states.length) && recordsWF st.states st.rewards

/-- The three ways `run_agent` mutates the execution stack: pushing a
selected option, recording a primitive step, and popping a terminated
option (pops only happen after the driver has successfully read the top
of a non-empty stack). -/
inductive StackStep : Stack S O → Stack S O → Prop
  | push (st : Stack S O) (o : O) (s : S) : StackStep st (pushOp st o s)
  | primStep (st : Stack S O) (s : S) (r : ℚ) : StackStep st (stepOp st s r)
  | pop (st : Stack S O) (h : st.opts ≠ []) : StackStep st (popOp st)

/-- An environment interaction performed by `run_agent`: an `env.reset()`
or an `env.step(action)` call. -/
inductive EnvEvent (A : Type) : Type
  | reset
  | step (a : A)
deriving DecidableEq

/-- Lines 200-204 of the driver: `isinstance(selected_option, Option)`
decides between pushing the option (left) and executing a primitive
action (right). -/
def decisionBranch (st : Stack S O) (state : S) :
    Decision A O → Stack S O ⊕ A
  | .opt o => .inl (pushOp st o state)
  | .prim a => .inr a

/-- The `while self._roll_termination(self.executing_options[-1], next_state):`
loop (lines 217-233).  The three stack lists are passed separately so the
recursion is structural on the option list; `rng c` models the
`random.random()` draw of `_roll_termination` at decision counter `c`
(the roll terminates the option unless the draw exceeds the termination
probability).  Evaluating `executing_options[-1]` on an empty stack raises
IndexError before any draw is consumed. -/
def cascadeGo (E : EnvModel S A O) (αm αi γ : ℚ) (next : S) (rng : Nat → ℚ) :
    List O → List (List S) → List (List ℚ) → QTab → Nat →
    Except PyErr (Stack S O × QTab × Nat)
  | [], _, _, _, _ => .error .indexError
  | top :: orest, ss, rs, q, c =>
      if rng c > E.termination top next then .ok (⟨top :: orest, ss, rs⟩, q, c + 1)
      else
        match ss, rs with
        | straj :: srest, rtraj :: rrest =>
            match macro_q_learn E αm γ straj rtraj top q with
            | .error e => .error e
            | .ok (q1, _) =>
                match intra_option_learn E αi γ straj rtraj top q1 with
                | .error e => .error e
                | .ok q2 => cascadeGo E αm αi γ next rng orest srest rrest q2 (c + 1)
        | _, _ => .error .indexError

/-- The `while len(self.executing_options) > 0:` unwind on episode
termination (lines 236-252): learn from and pop every remaining option,
top-down. -/
def unwindGo (E : EnvModel S A O) (αm αi γ : ℚ) :
    List O → List (List S) → List (List ℚ) → QTab → Except PyErr QTab
  | [], _, _, q => .ok q
  | top :: orest, ss, rs, q =>
      match ss, rs with
      | straj :: srest, rtraj :: rrest =>
          match macro_q_learn E αm γ straj rtraj top q with
          | .error e => .error e
          | .ok (q1, _) =>
              match intra_option_learn E αi γ straj rtraj top q1 with
              | .error e => .error e
              | .ok q2 => unwindGo E αm αi γ orest srest rrest q2
      | _, _ => .error .indexError

/-- The `while not terminal:` episode body of `run_agent` (lines 197-252),
bounded by `fuel` iterations (`fuelOut` is the modelling artifact for
running out of fuel; no Python exception corresponds to it).  `c` counts
decision points into the two random oracles.  On termination the stack has
been fully unwound, so the empty stack is returned together with the
accumulated per-step rewards, the value table, the oracle counter and the
environment-interaction log. -/
def episodeLoop (E : EnvModel S A O) (ε αm αi γ : ℚ)
    (rng : Nat → ℚ) (ridx : Nat → Nat) :
    Nat → Nat → S → Stack S O → QTab → List ℚ → List (EnvEvent A) →
    Except PyErr (List ℚ × Stack S O × QTab × Nat × List (EnvEvent A))
  | 0, _, _, _, _, _, _ => .error .fuelOut
  | fuel + 1, c, state, stack, q, rewAcc, evs =>
      match select_action E ε q stack.opts state (rng c) (ridx c) with
      | .error e => .error e
      | .ok sel =>
          match decisionBranch stack state sel with
          | .inl stack' =>
              episodeLoop E ε αm αi γ rng ridx fuel (c + 1) state stack' q rewAcc evs
          | .inr a =>
              let res := E.stepf state a
              let next := res.1
              let r := res.2.1
              let term := res.2.2
              let rewAcc' := rewAcc ++ [r]
              let evs' := evs ++ [.step a]
              let stack' := stepOp stack next r
              match cascadeGo E αm αi γ next rng stack'.opts stack'.states
                  stack'.rewards q (c + 1) with
              | .error e => .error e
              | .ok (stack2, q2, c2) =>
                  if term then
                    match unwindGo E αm αi γ stack2.opts stack2.states
                        stack2.rewards q2 with
                    | .error e => .error e
                    | .ok q3 => .ok (rewAcc', ⟨[], [], []⟩, q3, c2, evs')
                  else
                    episodeLoop E ε αm αi γ rng ridx fuel c2 next stack2 q2 rewAcc' evs'

/-- The `for episode in range(num_episodes):` loop of `run_agent`,
collecting one reward list per episode. -/
def runAgentGo (E : EnvModel S A O) (ε αm αi γ : ℚ)
    (rng : Nat → ℚ) (ridx : Nat → Nat) (fuel : Nat) :
    Nat → Nat → Stack S O → QTab → List (EnvEvent A) →
    Except PyErr (List (List ℚ) × Stack S O × QTab × List (EnvEvent A))
  | 0, _, stack, q, evs => .ok ([], stack, q, evs)
  | n + 1, c, stack, q, evs =>
      match episodeLoop E ε αm αi γ rng ridx fuel c E.reset stack q [] (evs ++ [.reset]) with
      | .error e => .error e
      | .ok (rews, stack', q', c', evs') =>
          match runAgentGo E ε αm αi γ rng ridx fuel n c' stack' q' evs' with
          | .error e => .error e
          | .ok (rest, stackF, qF, evsF) => .ok (rews :: rest, stackF, qF, evsF)

/-- `OptionAgent.run_agent(num_episodes)`, started from the agent's current
value table and execution stack, with empty environment-interaction log. -/
def run_agent (E : EnvModel S A O) (ε αm αi γ : ℚ)
    (rng : Nat → ℚ) (ridx : Nat → Nat) (fuel : Nat)
    (numEpisodes : Nat) (stack : Stack S O) (q : QTab) :
    Except PyErr (List (List ℚ) × Stack S O × QTab × List (EnvEvent A)) :=
  runAgentGo E ε αm αi γ rng ridx fuel numEpisodes 0 stack q []

instance instDecEqExcept {ε α : Type} [DecidableEq ε] [DecidableEq α] :
    DecidableEq (Except ε α) := fun x y =>
  match x, y with
  | .error a, .error b =>
      if h : a = b then .isTrue (by rw [h])
      else .isFalse (by intro hh; injection hh; exact h (by assumption))
  | .ok a, .ok b =>
      if h : a = b then .isTrue (by rw [h])
      else .isFalse (by intro hh; injection hh; exact h (by assumption))
  | .error _, .ok _ => .isFalse (by intro hh; injection hh)
  | .ok _, .error _ => .isFalse (by intro hh; injection hh)

/-- Scaling every element of the power list scales the dot product. -/
lemma zip_mul_scale (γ : ℚ) (rs gs : List ℚ) :
    (List.zipWith (fun r g => r * g) rs (gs.map fun g => γ * g)).sum
      = γ * (List.zipWith (fun r g => r * g) rs gs).sum := by
  induction rs generalizing gs with
  | nil => simp
  | cons r rs ih =>
      cases gs with
      | nil => simp
      | cons g gs => simp [ih]; ring

/-- Peeling the first reward off the elementwise dot product with the
`γ ^ i` power list. -/
lemma discounted_return_cons (γ r : ℚ) (rs : List ℚ) :
    discounted_return (r :: rs) γ = r + γ * discounted_return rs γ := by
  have h1 : List.range (rs.length + 1) = 0 :: List.map Nat.succ (List.range rs.length) :=
    List.range_succ_eq_map rs.length
  have h2 : List.map ((fun i => γ ^ i) ∘ Nat.succ) (List.range rs.length)
      = List.map (fun g => γ * g) (List.map (fun i => γ ^ i) (List.range rs.length)) := by
    rw [List.map_map]
    apply List.map_congr_left
    intro i _
    simp [Function.comp, pow_succ']
  simp only [discounted_return, List.length_cons, h1, List.map_cons,
    List.zipWith_cons_cons, List.sum_cons, pow_zero]
  rw [List.map_map, h2, zip_mul_scale]
  ring

/-- C9: `_discounted_return` returns 0 on the empty reward list, `r` on the
singleton list `[r]`, and satisfies the recursive decomposition law
`discounted_return(r :: rs, γ) = r + γ * discounted_return(rs, γ)`. -/
theorem discounted_return_spec :
    (∀ γ : ℚ, discounted_return [] γ = 0) ∧
    (∀ γ r : ℚ, discounted_return [r] γ = r) ∧
    (∀ (γ r : ℚ) (rs : List ℚ),
      discounted_return (r :: rs) γ = r + γ * discounted_return rs γ) := by
  refine ⟨fun γ => rfl, fun γ r => ?_, fun γ r rs => discounted_return_cons γ r rs⟩
  rw [discounted_return_cons]
  show r + γ * discounted_return [] γ = r
  rw [show discounted_return [] γ = 0 from rfl]
  ring

/-- C10: `run_agent(0)` returns the empty list of per-episode rewards,
performs no environment interaction (no `reset`, no `step`), and leaves
both the value table and the execution stack exactly as they were. -/
theorem run_agent_zero_episodes (E : EnvModel S A O) (ε αm αi γ : ℚ)
    (rng : Nat → ℚ) (ridx : Nat → Nat) (fuel : Nat)
    (stack : Stack S O) (q : QTab) :
    run_agent E ε αm αi γ rng ridx fuel 0 stack q = .ok ([], stack, q, []) := rfl

/-- Concrete environment for exercising `macro_q_learn` on a trajectory
that ends in a terminal state: state `1` is terminal, one option `7` is
available everywhere. -/
def envTerminalAt1 : EnvModel Nat Nat Nat where
  isTerminal := fun s => s == 1
  availOptions := fun _ => [.opt 7]
  reset := 0
  stepf := fun s _ => (s, 0, false)
  initiation := fun _ _ => true
  policy := fun _ _ => .prim 0
  termination := fun _ _ => 1
  hashS := fun s => (s : Int)
  hashA := fun a => 2000 + (a : Int)
  hashO := fun o => 1000 + (o : Int)

/-- C1 (code bug): on the trajectory `[0, 1]` with one recorded reward and
terminal final state `1`, `macro_q_learn` does not complete normally: the
terminal branch executes `q_values.append(0)` but `q_values` is never
assigned on this path, so the call raises UnboundLocalError before
performing any of the claimed suffix updates. -/
theorem macro_q_learn_terminal_raises :
    macro_q_learn envTerminalAt1 (1/5) (9/10) [0, 1] [1] 7 []
      = .error .unboundLocal := by decide

/-- Concrete environment with no terminal states, one option `7` available
everywhere, which always terminates (termination probability 1). -/
def envCascade : EnvModel Nat Nat Nat where
  isTerminal := fun _ => false
  availOptions := fun _ => [.opt 7]
  reset := 0
  stepf := fun s _ => (s, 0, false)
  initiation := fun _ _ => true
  policy := fun _ _ => .prim 0
  termination := fun _ _ => 1
  hashS := fun s => (s : Int)
  hashA := fun a => 2000 + (a : Int)
  hashO := fun o => 1000 + (o : Int)

/-- C2 (code bug): a single executing option `7` (trajectory `[0, 1]`,
one reward) whose termination probability at the non-terminal next state
`1` is 1.  The draw `0` terminates it; both learners run and the option is
popped; the loop then re-evaluates `executing_options[-1]` on the now
empty stack and raises IndexError instead of exiting with an empty
stack. -/
theorem cascade_empty_stack_raises :
    cascadeGo envCascade (1/5) (1/5) (9/10) 1 (fun _ => 0)
      [7] [[0, 1]] [[1]] [] 0 = .error .indexError := by decide

/-- Concrete environment for `select_action`: two options `3` and `4`
available at state `0`. -/
def envSelect : EnvModel Nat Nat Nat where
  isTerminal := fun _ => false
  availOptions := fun _ => [.opt 3, .opt 4]
  reset := 0
  stepf := fun s _ => (s, 0, false)
  initiation := fun _ _ => true
  policy := fun _ _ => .prim 0
  termination := fun _ _ => 1
  hashS := fun s => (s : Int)
  hashA := fun a => 2000 + (a : Int)
  hashO := fun o => 1000 + (o : Int)

/-- Value table giving option `3` value 1/2 and option `4` value 7/10 at
state `0` (the spec's 0.5 / 0.7 scenario). -/
def qSelect : QTab := [((0, 1003), 1/2), ((0, 1004), 7/10)]

/-- C3 (code bug): with an empty execution stack and `epsilon = 0`, the
greedy branch of `select_action` is taken deterministically, and instead
of returning the option with the highest Q-value it raises TypeError:
`random.choice` is applied to a generator expression, which has no
`len()`. -/
theorem select_action_greedy_raises :
    select_action envSelect 0 qSelect [] 0 0 0 = .error .typeError := by decide

/-- Concrete environment for `intra_option_learn`: the executed option `9`
and the available option `5` both select primitive action `3` at state
`0` (their policies agree), and option `5` may initiate everywhere. -/
def envAgree : EnvModel Nat Nat Nat where
  isTerminal := fun _ => false
  availOptions := fun _ => [.opt 5]
  reset := 0
  stepf := fun s _ => (s, 0, false)
  initiation := fun _ _ => true
  policy := fun _ _ => .prim 3
  termination := fun _ _ => 1
  hashS := fun s => (s : Int)
  hashA := fun a => 2000 + (a : Int)
  hashO := fun o => 1000 + (o : Int)

/-- C4 (code bug): at suffix start `0` of trajectory `[0, 1]`, option `5`
is available, its initiation predicate holds, and its policy selects the
same action `3` as the executed option `9` does — so the claim requires an
update for `5`.  The code instead tests
`hash(executed_option.policy(s_0)) == hash(executed_option)`, i.e.
`hash(action 3) == hash(option 9)`, which is false, so the value table is
returned entirely unchanged: no update is applied at all. -/
theorem intra_option_agreeing_option_not_updated :
    envAgree.initiation 5 0 = true ∧
    envAgree.policy 5 0 = .prim 3 ∧
    envAgree.policy 9 0 = .prim 3 ∧
    intra_option_learn envAgree (1/5) (9/10) [0, 1] [1] 9 [] = .ok [] := by decide

/-- Concrete environment for the intra-option backup key question: the
executed option `9` satisfies the source's update condition (its policy
returns itself, so `hash(executed.policy(s)) == hash(executed)`), option
`5` is available everywhere with initiation true and termination
probability 0. -/
def envSelfPolicy : EnvModel Nat Nat Nat where
  isTerminal := fun _ => false
  availOptions := fun _ => [.opt 5]
  reset := 0
  stepf := fun s _ => (s, 0, false)
  initiation := fun _ _ => true
  policy := fun o _ => if o == 9 then .opt 9 else .prim 3
  termination := fun _ _ => 0
  hashS := fun s => (s : Int)
  hashA := fun a => 2000 + (a : Int)
  hashO := fun o => 1000 + (o : Int)

/-- Value table with `Q(s_0, option 5) = 1` and `Q(s_1, option 5) = 5`
(`hashS 0 = 0`, `hashS 1 = 1`, `hashO 5 = 1005`). -/
def qIntra : QTab := [((0, 1005), 1), ((1, 1005), 5)]

/-- C5 counterexample: on trajectory `[0, 1]` with reward `[1]`,
`alpha = 1/2`, `gamma = 1`, the single intra-option backup writes
`1 + 1/2 * (1 + 1 * (5 + 0) - 1) = 7/2` at key `(s_1, option 5)` — the
old value `1` was read at `(s_0, option 5)`.  The claim's formula, with
`old = Q(s_1, option 5) = 5`, predicts `5 + 1/2 * (1 + 1 * (5 + 0) - 5)
= 11/2` instead, so the claim is false at this input. -/
theorem intra_old_read_key_cex :
    intra_option_learn envSelfPolicy (1/2) 1 [0, 1] [1] 9 qIntra
      = .ok (qset qIntra (1, 1005) (7/2)) ∧
    qget (qset qIntra (1, 1005) (7/2)) (1, 1005) ≠
      qget qIntra (1, 1005) + (1/2) * (discounted_return [1] 1
        + 1 ^ 1 * ((1 - envSelfPolicy.termination 5 1) * qget qIntra (1, 1005)
          + envSelfPolicy.termination 5 1
            * listMax0 ([Decision.opt 5].map fun o => qget qIntra (1, hashD envSelfPolicy o)))
        - qget qIntra (1, 1005)) := by
  constructor
  · norm_num [intra_option_learn, intra_go, intra_inner, envSelfPolicy, qIntra,
      qset, qget, discounted_return, listMax0, hashD]
  · norm_num [envSelfPolicy, qIntra, qset, qget, discounted_return, listMax0, hashD]

/-- Concrete environment in which option `1`'s policy delegates to a
sub-option `2` at state `0`. -/
def envDelegate : EnvModel Nat Nat Nat where
  isTerminal := fun _ => false
  availOptions := fun _ => [.opt 1]
  reset := 0
  stepf := fun s _ => (s, 0, false)
  initiation := fun _ _ => true
  policy := fun o _ => if o == 1 then .opt 2 else .prim 0
  termination := fun _ _ => 0
  hashS := fun s => (s : Int)
  hashA := fun a => 2000 + (a : Int)
  hashO := fun o => 1000 + (o : Int)

/-- C6 counterexample: with the non-empty stack `[1]`, `select_action`
delegates to option `1`'s policy, which returns the sub-option `2`; the
driver's `isinstance(selected_option, Option)` branch then pushes it, so
the stack depth increases from 1 to 2 while an option is executing —
refuting the claim that only top-level selection can cause a push. -/
theorem delegation_push_cex :
    select_action envDelegate (3/20) [] [1] 0 0 0 = .ok (.opt 2) ∧
    decisionBranch (⟨[1], [[0]], [[]]⟩ : Stack Nat Nat) 0
        ((.opt 2 : Decision Nat Nat))
      = .inl (pushOp ⟨[1], [[0]], [[]]⟩ 2 0) ∧
    (pushOp (⟨[1], [[0]], [[]]⟩ : Stack Nat Nat) 2 0).opts.length = 2 := by decide

/-- C6 amended: a new option is pushed whenever the selected decision is
an Option value — whether it came from top-level epsilon-greedy selection
or from delegating to the policy of the option on top of a non-empty
stack.  In particular, when the top option's policy returns a sub-option,
the driver pushes it and the stack depth increases by one. -/
theorem delegation_pushes_sub_option (E : EnvModel S A O) (ε : ℚ) (q : QTab)
    (st : Stack S O) (state : S) (rv : ℚ) (ri : Nat) (o o2 : O) (rest : List O)
    (hst : st.opts = o :: rest) (hpol : E.policy o state = .opt o2) :
    select_action E ε q st.opts state rv ri = .ok (.opt o2) ∧
    decisionBranch st state (Decision.opt o2 : Decision A O)
      = .inl (pushOp st o2 state) ∧
    (pushOp st o2 state).opts.length = st.opts.length + 1 := by
  refine ⟨?_, rfl, ?_⟩
  · rw [hst]
    show Except.ok (E.policy o state) = _
    rw [hpol]
  · simp [pushOp]

/-- Witness for the amended C6 theorem at the concrete environment
`envDelegate`, stack `[1]`, state `0`. -/
theorem delegation_pushes_sub_option_witness :
    ((⟨[1], [[0]], [[]]⟩ : Stack Nat Nat).opts = 1 :: [] ∧
      envDelegate.policy 1 0 = .opt 2) ∧
    (select_action envDelegate (3/20) []
        (⟨[1], [[0]], [[]]⟩ : Stack Nat Nat).opts 0 0 0 = .ok (.opt 2) ∧
      decisionBranch (⟨[1], [[0]], [[]]⟩ : Stack Nat Nat) 0
          (Decision.opt 2 : Decision Nat Nat)
        = .inl (pushOp ⟨[1], [[0]], [[]]⟩ 2 0) ∧
      (pushOp (⟨[1], [[0]], [[]]⟩ : Stack Nat Nat) 2 0).opts.length
        = (⟨[1], [[0]], [[]]⟩ : Stack Nat Nat).opts.length + 1) :=
  ⟨⟨rfl, rfl⟩,
   delegation_pushes_sub_option envDelegate (3/20) [] ⟨[1], [[0]], [[]]⟩ 0 0 0 1 2 []
     rfl rfl⟩

/-- Replay a log of `q_table[key] = value` assignments, oldest first. -/
def applyLog (q : QTab) : List ((Int × Int) × ℚ) → QTab
  | [] => q
  | e :: rest => applyLog (qset q e.1 e.2) rest

/-- The single Macro-Q update performed for the suffix starting at `s0`
with the given remaining rewards, reading from table `q`: the key
`(hash(s0), hash(option))` together with the written value
`old + α · (G + γ^len(rewards) · max(next values) − old)`. -/
def macroEntry (E : EnvModel S A O) (αm γ : ℚ) (term : S) (opt : O)
    (q : QTab) (s0 : S) (rewards : List ℚ) : (Int × Int) × ℚ :=
  ((E.hashS s0, E.hashO opt),
    qget q (E.hashS s0, E.hashO opt)
      + αm * (discounted_return rewards γ
        + γ ^ rewards.length
          * listMax0 ((E.availOptions term).map fun o => qget q (E.hashS term, hashD E o))
        - qget q (E.hashS s0, E.hashO opt)))

/-- The sequence of Macro-Q updates for all suffixes of the trajectory,
each reading from the table produced by its predecessors. -/
def macroEntries (E : EnvModel S A O) (αm γ : ℚ) (term : S) (opt : O) :
    List S → List ℚ → QTab → List ((Int × Int) × ℚ)
  | s0 :: s1 :: rest, r0 :: rs, q =>
      let e := macroEntry E αm γ term opt q s0 (r0 :: rs)
      e :: macroEntries E αm γ term opt (s1 :: rest) rs (qset q e.1 e.2)
  | _, _, _ => []

/-- The Macro-Q loop, on a trajectory with matching reward length, a
non-terminal termination state and a non-empty available-option set,
performs exactly the writes listed by `macroEntries`, in order, and
returns the table with those writes applied. -/
lemma macro_go_eq_entries (E : EnvModel S A O) (αm γ : ℚ) (term : S) (opt : O)
    (hterm : E.isTerminal term = false) (hav : E.availOptions term ≠ []) :
    ∀ (traj : List S) (rewards : List ℚ) (q : QTab) (log : List ((Int × Int) × ℚ)),
      traj.length = rewards.length + 1 →
      macro_q_learn_go E αm γ term opt traj rewards q log
        = .ok (applyLog q (macroEntries E αm γ term opt traj rewards q),
               log ++ macroEntries E αm γ term opt traj rewards q) := by
  intro traj
  induction traj with
  | nil => intro rewards q log hlen; simp at hlen
  | cons s0 t ih =>
      intro rewards q log hlen
      cases t with
      | nil =>
          cases rewards with
          | nil => simp [macro_q_learn_go, macroEntries, applyLog]
          | cons r rs => simp at hlen
      | cons s1 rest =>
          cases rewards with
          | nil =>
              exfalso
              simp only [List.length_cons, List.length_nil] at hlen
              omega
          | cons r0 rs =>
              obtain ⟨d, ds, hdds⟩ := List.exists_cons_of_ne_nil hav
              have hlen' : (s1 :: rest).length = rs.length + 1 := by
                simp only [List.length_cons] at hlen ⊢
                omega
              simp only [macro_q_learn_go, hterm, Bool.false_eq_true, if_false,
                hdds, List.map_cons]
              rw [ih rs _ _ hlen']
              simp only [macroEntries, macroEntry, hdds, List.map_cons, listMax0,
                applyLog, qset, List.append_assoc, List.singleton_append]

/-- `macroEntries` produces one entry per recorded reward. -/
lemma macroEntries_length (E : EnvModel S A O) (αm γ : ℚ) (term : S) (opt : O) :
    ∀ (traj : List S) (rewards : List ℚ) (q : QTab),
      traj.length = rewards.length + 1 →
      (macroEntries E αm γ term opt traj rewards q).length = rewards.length := by
  intro traj
  induction traj with
  | nil => intro rewards q hlen; simp at hlen
  | cons s0 t ih =>
      intro rewards q hlen
      cases t with
      | nil =>
          cases rewards with
          | nil => simp [macroEntries]
          | cons r rs => simp at hlen
      | cons s1 rest =>
          cases rewards with
          | nil =>
              exfalso
              simp only [List.length_cons, List.length_nil] at hlen
              omega
          | cons r0 rs =>
              have hlen' : (s1 :: rest).length = rs.length + 1 := by
                simp only [List.length_cons] at hlen ⊢
                omega
              simp only [macroEntries, List.length_cons, ih rs _ hlen']

/-- The `k`-th entry of `macroEntries` is the Macro-Q update for suffix
start `k`: it reads from the table with the first `k` entries applied and
uses the rewards with the first `k` dropped. -/
lemma macroEntries_get? (E : EnvModel S A O) (αm γ : ℚ) (term : S) (opt : O) :
    ∀ (traj : List S) (rewards : List ℚ) (q : QTab) (k : Nat) (sk : S),
      traj.length = rewards.length + 1 → k < rewards.length →
      traj.get? k = some sk →
      (macroEntries E αm γ term opt traj rewards q).get? k
        = some (macroEntry E αm γ term opt
            (applyLog q ((macroEntries E αm γ term opt traj rewards q).take k))
            sk (rewards.drop k)) := by
  intro traj
  induction traj with
  | nil => intro rewards q k sk hlen _ _; simp at hlen
  | cons s0 t ih =>
      intro rewards q k sk hlen hk hget
      cases t with
      | nil =>
          cases rewards with
          | nil => simp at hk
          | cons r rs => simp at hlen
      | cons s1 rest =>
          cases rewards with
          | nil => simp at hk
          | cons r0 rs =>
              have hlen' : (s1 :: rest).length = rs.length + 1 := by
                simp only [List.length_cons] at hlen ⊢
                omega
              cases k with
              | zero =>
                  simp only [List.get?] at hget
                  cases hget
                  simp [macroEntries, applyLog]
              | succ k =>
                  have hk' : k < rs.length := by
                    simp only [List.length_cons] at hk
                    omega
                  have hget' : (s1 :: rest).get? k = some sk := hget
                  simp only [macroEntries, List.get?, List.take_succ_cons, applyLog]
                  exact ih rs _ k sk hlen' hk' hget'

/-- C7: on a trajectory of `n+1` states and `n` rewards whose final state
is non-terminal (and has at least one available option, the Selector's
precondition), `macro_q_learn` succeeds and performs exactly `n` value
table updates, one per suffix start `k`, the `k`-th keyed by
`(hash(s_k), hash(option))` with written value
`old + α · (G_k + γ^(n-k) · max(next values) − old)` where
`G_k` is the discounted return of the remaining rewards `r_k..r_{n-1}`
and `old`/`next values` are read from the table with the previous `k`
updates applied; for `n = 0` no update occurs and no error is raised. -/
theorem macro_q_learn_suffix_updates (E : EnvModel S A O) (αm γ : ℚ)
    (traj : List S) (rewards : List ℚ) (opt : O) (q : QTab) (term : S)
    (hlast : traj.getLast? = some term)
    (hlen : traj.length = rewards.length + 1)
    (hterm : E.isTerminal term = false)
    (hav : E.availOptions term ≠ []) :
    ∃ l : List ((Int × Int) × ℚ),
      macro_q_learn E αm γ traj rewards opt q = .ok (applyLog q l, l) ∧
      l.length = rewards.length ∧
      ∀ (k : Nat) (sk : S), k < rewards.length → traj.get? k = some sk →
        l.get? k = some ((E.hashS sk, E.hashO opt),
          qget (applyLog q (l.take k)) (E.hashS sk, E.hashO opt)
            + αm * (discounted_return (rewards.drop k) γ
              + γ ^ (rewards.length - k)
                * listMax0 ((E.availOptions term).map fun o =>
                    qget (applyLog q (l.take k)) (E.hashS term, hashD E o))
              - qget (applyLog q (l.take k)) (E.hashS sk, E.hashO opt))) := by
  refine ⟨macroEntries E αm γ term opt traj rewards q, ?_,
    macroEntries_length E αm γ term opt traj rewards q hlen, ?_⟩
  · unfold macro_q_learn
    rw [hlast]
    show macro_q_learn_go E αm γ term opt traj rewards q [] = _
    rw [macro_go_eq_entries E αm γ term opt hterm hav traj rewards q [] hlen]
    simp
  · intro k sk hk hget
    rw [macroEntries_get? E αm γ term opt traj rewards q k sk hlen hk hget]
    simp only [macroEntry, List.length_drop]

/-- Witness for C7 at the concrete environment `envCascade`, trajectory
`[0, 1]`, rewards `[1]`, option `7`, empty initial table. -/
theorem macro_q_learn_suffix_updates_witness :
    (([0, 1] : List Nat).getLast? = some 1 ∧
     ([0, 1] : List Nat).length = ([1] : List ℚ).length + 1 ∧
     envCascade.isTerminal 1 = false ∧
     envCascade.availOptions 1 ≠ []) ∧
    ∃ l : List ((Int × Int) × ℚ),
      macro_q_learn envCascade (1/5) (9/10) [0, 1] [1] 7 [] = .ok (applyLog [] l, l) ∧
      l.length = ([1] : List ℚ).length ∧
      ∀ (k : Nat) (sk : Nat), k < ([1] : List ℚ).length →
        ([0, 1] : List Nat).get? k = some sk →
        l.get? k = some ((envCascade.hashS sk, envCascade.hashO 7),
          qget (applyLog [] (l.take k)) (envCascade.hashS sk, envCascade.hashO 7)
            + (1/5) * (discounted_return (([1] : List ℚ).drop k) (9/10)
              + (9/10 : ℚ) ^ (([1] : List ℚ).length - k)
                * listMax0 ((envCascade.availOptions 1).map fun o =>
                    qget (applyLog [] (l.take k)) (envCascade.hashS 1, hashD envCascade o))
              - qget (applyLog [] (l.take k)) (envCascade.hashS sk, envCascade.hashO 7))) :=
  ⟨⟨rfl, rfl, rfl, by decide⟩,
   macro_q_learn_suffix_updates envCascade (1/5) (9/10) [0, 1] [1] 7 [] 1
     rfl rfl rfl (by decide)⟩

/-- Appending one state and one reward to every co-indexed trajectory pair
preserves the per-record invariant. -/
lemma recordsWF_stepOp (s' : S) (r : ℚ) :
    ∀ (ss : List (List S)) (rs : List (List ℚ)),
      recordsWF ss rs = true →
      recordsWF (ss.map fun tr => tr ++ [s']) (rs.map fun tr => tr ++ [r]) = true := by
  intro ss
  induction ss with
  | nil =>
      intro rs h
      cases rs with
      | nil => simp [recordsWF]
      | cons a as => simp [recordsWF] at h
  | cons a as ih =>
      intro rs h
      cases rs with
      | nil => simp [recordsWF] at h
      | cons b bs =>
          simp only [recordsWF, Bool.and_eq_true, beq_iff_eq] at h
          simp only [List.map_cons, recordsWF, Bool.and_eq_true, beq_iff_eq,
            List.length_append, List.length_cons, List.length_nil]
          refine ⟨?_, ih bs h.2⟩
          omega

/-- Dropping the top record from both trajectory lists preserves the
per-record invariant. -/
lemma recordsWF_tail (ss : List (List S)) (rs : List (List ℚ))
    (h : recordsWF ss rs = true) : recordsWF ss.tail rs.tail = true := by
  cases ss with
  | nil =>
      cases rs with
      | nil => simpa using h
      | cons b bs => simp [recordsWF] at h
  | cons a as =>
      cases rs with
      | nil => simp [recordsWF] at h
      | cons b bs =>
          simp only [recordsWF, Bool.and_eq_true] at h
          simpa using h.2

/-- Each single stack mutation performed by `run_agent` preserves the
execution-stack invariant. -/
lemma stackStep_preserves_wf (st st' : Stack S O)
    (hstep : StackStep st st') (hwf : stackWF st = true) :
    stackWF st' = true := by
  obtain ⟨opts, states, rewards⟩ := st
  simp only [stackWF, Bool.and_eq_true, beq_iff_eq] at hwf
  cases hstep with
  | push o s =>
      simp only [stackWF, pushOp, Bool.and_eq_true, beq_iff_eq, List.length_cons,
        recordsWF, List.length_nil]
      exact ⟨by omega, ⟨trivial, hwf.2⟩⟩
  | primStep s r =>
      simp only [stackWF, stepOp, Bool.and_eq_true, beq_iff_eq, List.length_map]
      exact ⟨hwf.1, recordsWF_stepOp s r states rewards hwf.2⟩
  | pop h =>
      simp only [stackWF, popOp, Bool.and_eq_true, beq_iff_eq, List.length_tail]
      exact ⟨by omega, recordsWF_tail states rewards hwf.2⟩

/-- C8: after any sequence of pushes, primitive-step recordings and
termination pops (the only stack mutations `run_agent` performs), every
active option's trajectories satisfy `len(states) == len(rewards) + 1`
and the three parallel stack lists have equal length.  A push places the
new record at the top of all three lists (`pushOp`), so the stack stays
ordered by start time with the most recently started option on top. -/
theorem stack_invariant_preserved (st st' : Stack S O)
    (hwf : stackWF st = true)
    (hreach : Relation.ReflTransGen StackStep st st') :
    stackWF st' = true := by
  induction hreach with
  | refl => exact hwf
  | tail _ hbc ih => exact stackStep_preserves_wf _ _ hbc ih

/-- Witness for C8: a concrete push / primitive-step / pop sequence from
the empty stack. -/
theorem stack_invariant_preserved_witness :
    stackWF (⟨[], [], []⟩ : Stack Nat Nat) = true ∧
    stackWF (popOp (stepOp (pushOp (⟨[], [], []⟩ : Stack Nat Nat) 4 0) 1 1)) = true :=
  ⟨by decide,
   stack_invariant_preserved ⟨[], [], []⟩ _ (by decide)
     (Relation.ReflTransGen.tail
       (Relation.ReflTransGen.tail
         (Relation.ReflTransGen.tail (Relation.ReflTransGen.refl)
           (StackStep.push ⟨[], [], []⟩ 4 0))
         (StackStep.primStep _ 1 1))
       (StackStep.pop _ (by decide)))⟩

/-- The source's intra-option update condition for one element of
`get_available_options(initiation_state)`:
`other_option.initiation(initiation_state) and
hash(executed_option.policy(initiation_state)) == hash(executed_option)`
(a primitive action never qualifies — reaching one raises instead). -/
def qualifies (E : EnvModel S A O) (executed : O) (s0 : S) :
    Decision A O → Bool
  | .opt other => E.initiation other s0 &&
      (hashD E (E.policy executed s0) == E.hashO executed)
  | .prim _ => false

/-- One intra-option backup for option `other` at suffix-first state `s0`
with the given remaining rewards, reading from table `q`: the OLD value is
read at `(hash(s0), hash(other))` — the suffix's first state — and the
result, `old + α · (G + γ^len · (continue + terminate) − old)`, is keyed
for writing at `(hash(term), hash(other))` — the trajectory's last
state. -/
def intraEntry (E : EnvModel S A O) (αi γ : ℚ) (term : S) (q : QTab)
    (s0 : S) (rewards : List ℚ) (other : O) : (Int × Int) × ℚ :=
  ((E.hashS term, E.hashO other),
    qget q (E.hashS s0, E.hashO other)
      + αi * (discounted_return rewards γ
        + γ ^ rewards.length
          * ((1 - E.termination other term) * qget q (E.hashS term, E.hashO other)
            + E.termination other term
              * listMax0 ((E.availOptions term).map fun o =>
                  qget q (E.hashS term, hashD E o)))
        - qget q (E.hashS s0, E.hashO other)))

/-- The writes performed by one pass of the inner `for other_option in
...` loop over the available-option list, each reading from the table
produced by its predecessors. -/
def intraInnerEntries (E : EnvModel S A O) (αi γ : ℚ) (term : S)
    (executed : O) (s0 : S) (rewards : List ℚ) :
    List (Decision A O) → QTab → List ((Int × Int) × ℚ)
  | [], _ => []
  | .prim _ :: _, _ => []
  | .opt other :: others, q =>
      if E.initiation other s0 &&
          (hashD E (E.policy executed s0) == E.hashO executed) then
        let e := intraEntry E αi γ term q s0 rewards other
        e :: intraInnerEntries E αi γ term executed s0 rewards others
          (qset q e.1 e.2)
      else intraInnerEntries E αi γ term executed s0 rewards others q

/-- The per-suffix write blocks of `intra_option_learn`: one block per
suffix start, each reading from the table produced by the earlier
blocks. -/
def intraBlocks (E : EnvModel S A O) (αi γ : ℚ) (term : S) (executed : O) :
    List S → List ℚ → QTab → List (List ((Int × Int) × ℚ))
  | s0 :: s1 :: rest, r0 :: rs, q =>
      let b := intraInnerEntries E αi γ term executed s0 (r0 :: rs)
        (E.availOptions s0) q
      b :: intraBlocks E αi γ term executed (s1 :: rest) rs (applyLog q b)
  | _, _, _ => []

/-- Replaying a concatenated log is replaying the parts in order. -/
lemma applyLog_append (l1 l2 : List ((Int × Int) × ℚ)) :
    ∀ q : QTab, applyLog q (l1 ++ l2) = applyLog (applyLog q l1) l2 := by
  induction l1 with
  | nil => intro q; simp [applyLog]
  | cons e l1 ih =>
      intro q
      simp only [List.cons_append, applyLog]
      exact ih _

/-- The inner `for` loop of `intra_option_learn`, on an available-option
list that contains only options (the spec's `get_available_options`
contract) and with a non-empty available set at the termination state,
performs exactly the writes listed by `intraInnerEntries`. -/
lemma intra_inner_eq_entries (E : EnvModel S A O) (αi γ : ℚ) (term : S)
    (executed : O) (s0 : S) (rewards : List ℚ)
    (hav : E.availOptions term ≠ []) :
    ∀ (ds : List (Decision A O)) (q : QTab),
      (∀ d ∈ ds, ∃ o, d = Decision.opt o) →
      intra_inner E αi γ term executed s0 rewards ds q
        = .ok (applyLog q (intraInnerEntries E αi γ term executed s0 rewards ds q)) := by
  intro ds
  induction ds with
  | nil => intro q _; simp [intra_inner, intraInnerEntries, applyLog]
  | cons d others ih =>
      intro q hds
      cases d with
      | prim a =>
          obtain ⟨o, habs⟩ := hds (.prim a) (List.mem_cons_self _ _)
          exact absurd habs (by simp)
      | opt other =>
          have hothers : ∀ d ∈ others, ∃ o, d = Decision.opt o :=
            fun d hd => hds d (List.mem_cons_of_mem _ hd)
          obtain ⟨dav, dsav, hdds⟩ := List.exists_cons_of_ne_nil hav
          cases hcond : (E.initiation other s0 &&
              (hashD E (E.policy executed s0) == E.hashO executed)) with
          | false =>
              simp only [intra_inner, intraInnerEntries, hcond, Bool.false_eq_true,
                if_false]
              exact ih q hothers
          | true =>
              simp only [intra_inner, intraInnerEntries, hcond, if_true, hdds,
                List.map_cons]
              rw [ih _ hothers]
              simp only [intraEntry, applyLog, qset, hdds, List.map_cons, listMax0]

/-- The outer `while len(state_trajectory) > 1:` loop of
`intra_option_learn` performs exactly the per-suffix write blocks of
`intraBlocks`, in order. -/
lemma intra_go_eq_blocks (E : EnvModel S A O) (αi γ : ℚ) (term : S)
    (executed : O)
    (Hopts : ∀ (s : S), ∀ d ∈ E.availOptions s, ∃ o, d = Decision.opt o)
    (hav : E.availOptions term ≠ []) :
    ∀ (traj : List S) (rewards : List ℚ) (q : QTab),
      traj.length = rewards.length + 1 →
      intra_go E αi γ term executed traj rewards q
        = .ok (applyLog q (intraBlocks E αi γ term executed traj rewards q).flatten) := by
  intro traj
  induction traj with
  | nil => intro rewards q hlen; simp at hlen
  | cons s0 t ih =>
      intro rewards q hlen
      cases t with
      | nil =>
          cases rewards with
          | nil => simp [intra_go, intraBlocks, applyLog]
          | cons r rs => simp at hlen
      | cons s1 rest =>
          cases rewards with
          | nil =>
              exfalso
              simp only [List.length_cons, List.length_nil] at hlen
              omega
          | cons r0 rs =>
              have hlen' : (s1 :: rest).length = rs.length + 1 := by
                simp only [List.length_cons] at hlen ⊢
                omega
              simp only [intra_go,
                intra_inner_eq_entries E αi γ term executed s0 (r0 :: rs) hav
                  (E.availOptions s0) q (Hopts s0),
                intraBlocks, List.flatten_cons]
              rw [ih rs _ hlen', applyLog_append]

/-- `intraBlocks` produces one write block per suffix start. -/
lemma intraBlocks_length (E : EnvModel S A O) (αi γ : ℚ) (term : S)
    (executed : O) :
    ∀ (traj : List S) (rewards : List ℚ) (q : QTab),
      traj.length = rewards.length + 1 →
      (intraBlocks E αi γ term executed traj rewards q).length = rewards.length := by
  intro traj
  induction traj with
  | nil => intro rewards q hlen; simp at hlen
  | cons s0 t ih =>
      intro rewards q hlen
      cases t with
      | nil =>
          cases rewards with
          | nil => simp [intraBlocks]
          | cons r rs => simp at hlen
      | cons s1 rest =>
          cases rewards with
          | nil =>
              exfalso
              simp only [List.length_cons, List.length_nil] at hlen
              omega
          | cons r0 rs =>
              have hlen' : (s1 :: rest).length = rs.length + 1 := by
                simp only [List.length_cons] at hlen ⊢
                omega
              simp only [intraBlocks, List.length_cons, ih rs _ hlen']

/-- The `k`-th write block of `intraBlocks` is the inner pass at the
`k`-th trajectory state with the first `k` rewards dropped, reading from
the table with the earlier blocks applied. -/
lemma intraBlocks_get? (E : EnvModel S A O) (αi γ : ℚ) (term : S)
    (executed : O) :
    ∀ (traj : List S) (rewards : List ℚ) (q : QTab) (k : Nat) (sk : S),
      traj.length = rewards.length + 1 → k < rewards.length →
      traj.get? k = some sk →
      (intraBlocks E αi γ term executed traj rewards q).get? k
        = some (intraInnerEntries E αi γ term executed sk (rewards.drop k)
            (E.availOptions sk)
            (applyLog q ((intraBlocks E αi γ term executed traj rewards q).take k).flatten)) := by
  intro traj
  induction traj with
  | nil => intro rewards q k sk hlen _ _; simp at hlen
  | cons s0 t ih =>
      intro rewards q k sk hlen hk hget
      cases t with
      | nil =>
          cases rewards with
          | nil => simp at hk
          | cons r rs => simp at hlen
      | cons s1 rest =>
          cases rewards with
          | nil => simp at hk
          | cons r0 rs =>
              have hlen' : (s1 :: rest).length = rs.length + 1 := by
                simp only [List.length_cons] at hlen ⊢
                omega
              cases k with
              | zero =>
                  simp only [List.get?] at hget
                  cases hget
                  simp [intraBlocks, applyLog]
              | succ k =>
                  have hk' : k < rs.length := by
                    simp only [List.length_cons] at hk
                    omega
                  have hget' : (s1 :: rest).get? k = some sk := hget
                  simp only [intraBlocks, List.get?, List.take_succ_cons,
                    List.flatten_cons]
                  rw [ih rs _ k sk hlen' hk' hget', applyLog_append]
                  rfl

/-- One inner pass writes exactly one entry per qualifying available
option. -/
lemma intraInnerEntries_length (E : EnvModel S A O) (αi γ : ℚ) (term : S)
    (executed : O) (s0 : S) (rws : List ℚ) :
    ∀ (ds : List (Decision A O)) (q : QTab),
      (∀ d ∈ ds, ∃ o, d = Decision.opt o) →
      (intraInnerEntries E αi γ term executed s0 rws ds q).length
        = (ds.filter (qualifies E executed s0)).length := by
  intro ds
  induction ds with
  | nil => intro q _; simp [intraInnerEntries]
  | cons d others ih =>
      intro q hds
      cases d with
      | prim a =>
          obtain ⟨o, habs⟩ := hds (.prim a) (List.mem_cons_self _ _)
          exact absurd habs (by simp)
      | opt other =>
          have hothers : ∀ d ∈ others, ∃ o, d = Decision.opt o :=
            fun d hd => hds d (List.mem_cons_of_mem _ hd)
          cases hcond : (E.initiation other s0 &&
              (hashD E (E.policy executed s0) == E.hashO executed)) with
          | false =>
              have hq : qualifies E executed s0 (Decision.opt other) = false := hcond
              simp only [intraInnerEntries, hcond, Bool.false_eq_true, if_false,
                List.filter_cons, hq]
              exact ih q hothers
          | true =>
              have hq : qualifies E executed s0 (Decision.opt other) = true := hcond
              simp only [intraInnerEntries, hcond, if_true, List.filter_cons, hq,
                List.length_cons]
              rw [ih _ hothers]

/-- The `j`-th entry of one inner pass is the backup for the `j`-th
qualifying available option, reading from the table with the previous `j`
entries of the pass applied: the old value at the suffix-first state's
key, the written value keyed by the termination state. -/
lemma intraInnerEntries_get? (E : EnvModel S A O) (αi γ : ℚ) (term : S)
    (executed : O) (s0 : S) (rws : List ℚ) :
    ∀ (ds : List (Decision A O)) (q : QTab) (j : Nat) (other : O),
      (∀ d ∈ ds, ∃ o, d = Decision.opt o) →
      (ds.filter (qualifies E executed s0)).get? j = some (.opt other) →
      (intraInnerEntries E αi γ term executed s0 rws ds q).get? j
        = some (intraEntry E αi γ term
            (applyLog q ((intraInnerEntries E αi γ term executed s0 rws ds q).take j))
            s0 rws other) := by
  intro ds
  induction ds with
  | nil => intro q j other _ hj; simp at hj
  | cons d others ih =>
      intro q j other hds hj
      cases d with
      | prim a =>
          obtain ⟨o, habs⟩ := hds (.prim a) (List.mem_cons_self _ _)
          exact absurd habs (by simp)
      | opt o' =>
          have hothers : ∀ d ∈ others, ∃ o, d = Decision.opt o :=
            fun d hd => hds d (List.mem_cons_of_mem _ hd)
          cases hcond : (E.initiation o' s0 &&
              (hashD E (E.policy executed s0) == E.hashO executed)) with
          | false =>
              have hq : qualifies E executed s0 (Decision.opt o') = false := hcond
              simp only [List.filter_cons, hq, Bool.false_eq_true, if_false] at hj
              simp only [intraInnerEntries, hcond, Bool.false_eq_true, if_false]
              exact ih q j other hothers hj
          | true =>
              have hq : qualifies E executed s0 (Decision.opt o') = true := hcond
              simp only [List.filter_cons, hq, if_true] at hj
              cases j with
              | zero =>
                  simp only [List.get?] at hj
                  have : o' = other := by
                    injection hj with h
                    exact (Decision.opt.injEq _ _).mp h
                  subst this
                  simp [intraInnerEntries, hcond, applyLog]
              | succ j =>
                  simp only [List.get?] at hj
                  simp only [intraInnerEntries, hcond, if_true, List.get?,
                    List.take_succ_cons, applyLog]
                  exact ih _ j other hothers hj

/-- C5 amended: in `intra_option_learn`, for EVERY suffix start `k` and
EVERY qualifying available option `other` (the inner loop's `j`-th, with
earlier writes of the same call already applied to the table), the OLD
value is read at the key formed from the suffix's FIRST state,
`(hash(s_k), hash(other))`, while the updated value is keyed by the
trajectory's last state, `(hash(s_n), hash(other))`.  Stated under the
spec's environment contract that `get_available_options` returns options
and is non-empty at the (non-terminal) termination state. -/
theorem intra_backup_reads_s0_writes_term (E : EnvModel S A O) (αi γ : ℚ)
    (traj : List S) (rewards : List ℚ) (executed : O) (q : QTab) (term : S)
    (hlast : traj.getLast? = some term)
    (hlen : traj.length = rewards.length + 1)
    (Hopts : ∀ (s : S), ∀ d ∈ E.availOptions s, ∃ o, d = Decision.opt o)
    (hav : E.availOptions term ≠ []) :
    ∃ blocks : List (List ((Int × Int) × ℚ)),
      intra_option_learn E αi γ traj rewards executed q
        = .ok (applyLog q blocks.flatten) ∧
      blocks.length = rewards.length ∧
      ∀ (k : Nat) (sk : S), k < rewards.length → traj.get? k = some sk →
        ∃ bk : List ((Int × Int) × ℚ),
          blocks.get? k = some bk ∧
          bk.length = ((E.availOptions sk).filter (qualifies E executed sk)).length ∧
          ∀ (j : Nat) (other : O),
            ((E.availOptions sk).filter (qualifies E executed sk)).get? j
              = some (.opt other) →
            bk.get? j = some ((E.hashS term, E.hashO other),
              qget (applyLog (applyLog q (blocks.take k).flatten) (bk.take j))
                  (E.hashS sk, E.hashO other)
                + αi * (discounted_return (rewards.drop k) γ
                  + γ ^ (rewards.length - k)
                    * ((1 - E.termination other term)
                        * qget (applyLog (applyLog q (blocks.take k).flatten) (bk.take j))
                            (E.hashS term, E.hashO other)
                      + E.termination other term
                        * listMax0 ((E.availOptions term).map fun o =>
                            qget (applyLog (applyLog q (blocks.take k).flatten) (bk.take j))
                              (E.hashS term, hashD E o)))
                  - qget (applyLog (applyLog q (blocks.take k).flatten) (bk.take j))
                      (E.hashS sk, E.hashO other))) := by
  refine ⟨intraBlocks E αi γ term executed traj rewards q, ?_,
    intraBlocks_length E αi γ term executed traj rewards q hlen, ?_⟩
  · unfold intra_option_learn
    rw [hlast]
    show intra_go E αi γ term executed traj rewards q = _
    rw [intra_go_eq_blocks E αi γ term executed Hopts hav traj rewards q hlen]
  · intro k sk hk hget
    refine ⟨intraInnerEntries E αi γ term executed sk (rewards.drop k)
        (E.availOptions sk)
        (applyLog q ((intraBlocks E αi γ term executed traj rewards q).take k).flatten),
      intraBlocks_get? E αi γ term executed traj rewards q k sk hlen hk hget,
      intraInnerEntries_length E αi γ term executed sk (rewards.drop k)
        (E.availOptions sk) _ (Hopts sk), ?_⟩
    intro j other hj
    rw [intraInnerEntries_get? E αi γ term executed sk (rewards.drop k)
      (E.availOptions sk) _ j other (Hopts sk) hj]
    simp only [intraEntry, List.length_drop]

/-- Concrete environment with TWO available options `5` and `6` at every
state, both initiable, and an executed option `9` satisfying the source's
update condition (its policy returns itself). -/
def envTwoOpts : EnvModel Nat Nat Nat where
  isTerminal := fun _ => false
  availOptions := fun _ => [.opt 5, .opt 6]
  reset := 0
  stepf := fun s _ => (s, 0, false)
  initiation := fun _ _ => true
  policy := fun o _ => if o == 9 then .opt 9 else .prim 3
  termination := fun _ _ => 0
  hashS := fun s => (s : Int)
  hashA := fun a => 2000 + (a : Int)
  hashO := fun o => 1000 + (o : Int)

/-- Witness for the amended C5 theorem at a three-state trajectory
`[0, 1, 2]` (two suffix starts) with two available options per state. -/
theorem intra_backup_reads_s0_writes_term_witness :
    (([0, 1, 2] : List Nat).getLast? = some 2 ∧
     ([0, 1, 2] : List Nat).length = ([1, 2] : List ℚ).length + 1 ∧
     (∀ (s : Nat), ∀ d ∈ envTwoOpts.availOptions s, ∃ o, d = Decision.opt o) ∧
     envTwoOpts.availOptions 2 ≠ []) ∧
    ∃ blocks : List (List ((Int × Int) × ℚ)),
      intra_option_learn envTwoOpts (1/2) 1 [0, 1, 2] [1, 2] 9 []
        = .ok (applyLog [] blocks.flatten) ∧
      blocks.length = ([1, 2] : List ℚ).length ∧
      ∀ (k : Nat) (sk : Nat), k < ([1, 2] : List ℚ).length →
        ([0, 1, 2] : List Nat).get? k = some sk →
        ∃ bk : List ((Int × Int) × ℚ),
          blocks.get? k = some bk ∧
          bk.length = ((envTwoOpts.availOptions sk).filter
            (qualifies envTwoOpts 9 sk)).length ∧
          ∀ (j : Nat) (other : Nat),
            ((envTwoOpts.availOptions sk).filter (qualifies envTwoOpts 9 sk)).get? j
              = some (.opt other) →
            bk.get? j = some ((envTwoOpts.hashS 2, envTwoOpts.hashO other),
              qget (applyLog (applyLog [] (blocks.take k).flatten) (bk.take j))
                  (envTwoOpts.hashS sk, envTwoOpts.hashO other)
                + (1/2) * (discounted_return (([1, 2] : List ℚ).drop k) 1
                  + (1 : ℚ) ^ (([1, 2] : List ℚ).length - k)
                    * ((1 - envTwoOpts.termination other 2)
                        * qget (applyLog (applyLog [] (blocks.take k).flatten) (bk.take j))
                            (envTwoOpts.hashS 2, envTwoOpts.hashO other)
                      + envTwoOpts.termination other 2
                        * listMax0 ((envTwoOpts.availOptions 2).map fun o =>
                            qget (applyLog (applyLog [] (blocks.take k).flatten) (bk.take j))
                              (envTwoOpts.hashS 2, hashD envTwoOpts o)))
                  - qget (applyLog (applyLog [] (blocks.take k).flatten) (bk.take j))
                      (envTwoOpts.hashS sk, envTwoOpts.hashO other))) :=
  ⟨⟨rfl, rfl,
    by
      intro s d hd
      simp only [envTwoOpts, List.mem_cons, List.not_mem_nil, or_false] at hd
      rcases hd with h | h
      · exact ⟨5, h⟩
      · exact ⟨6, h⟩,
    by decide⟩,
   intra_backup_reads_s0_writes_term envTwoOpts (1/2) 1 [0, 1, 2] [1, 2] 9 [] 2
     rfl rfl
     (by
       intro s d hd
       simp only [envTwoOpts, List.mem_cons, List.not_mem_nil, or_false] at hd
       rcases hd with h | h
       · exact ⟨5, h⟩
       · exact ⟨6, h⟩)
     (by decide)⟩
